import Mathlib

/-!
Shallow embedding of `src/ocicat/parser.py`: a categorial-grammar recognizer
built from a four-variant term algebra (`Category`), a first-order unifier
with occurs-check (`unify`), a substitution applier (`substitute`), the CCG
combinator rules (type-raising, composition, application), and two search
entry points (`parse`, breadth-first over whole sequences, and `dparse`,
enumeration of binary bracketings with bounded type-raising).

The Python `Unbound` variables carry globally unique `uuid4` tokens minted by
a side effect; the embedding represents them as `Nat` indices and threads an
explicit next-fresh-index counter through every function that mints one.
Token identity is opaque in the source (only equality of tokens is ever
used), so this renaming-faithful model preserves all observable behavior.
-/

namespace Ocicat

/-- The category term algebra (classes `Unbound`, `Atomic`, `Right`, `Left`).
`Right arg ret` is the source's `Right(arg, ret)` (printed `arg > ret`);
`Left arg ret` is `Left(arg, ret)` (printed `ret < arg`).  Equality is the
derived structural equality of the frozen dataclasses, with `Unbound`
identity given by its token. -/
inductive Category where
  | Unbound (uuid : Nat)
  | Atomic (name : String)
  | Right (arg ret : Category)
  | Left (arg ret : Category)
deriving DecidableEq

/-- A substitution / equation list: ordered pairs of categories
(`Substitutions = list[tuple[Category, Category]]` in the source). -/
abbrev Substitutions := List (Category × Category)

/-- Equation lists have the same representation as substitutions. -/
abbrev Equations := List (Category × Category)

/-- Whether a category is an `Unbound` variable (the source's
`case Unbound()` pattern test). -/
def Category.isUnbound : Category → Bool
  | .Unbound _ => true
  | _ => false

/-- `count` from the source: number of functor constructors in a category
(`count(Atomic) = count(Unbound) = 0`,
`count(Left|Right) = count(arg) + count(ret) + 1`). -/
def count : Category → Nat
  | .Right arg ret => count arg + count ret + 1
  | .Left arg ret => count arg + count ret + 1
  | _ => 0

/-- `unbounds` from the source: the set of `Unbound` variables occurring in
a category. -/
def unbounds : Category → Finset Category
  | .Unbound u => {Category.Unbound u}
  | .Left arg ret => unbounds arg ∪ unbounds ret
  | .Right arg ret => unbounds arg ∪ unbounds ret
  | .Atomic _ => ∅

/-- The linear first-match key scan performed by the `for (key, value)`
loop at the head of the source's `substitute`. -/
def substituteLookup : Substitutions → Category → Option Category
  | [], _ => none
  | (key, value) :: subs, cat =>
    if cat = key then some value else substituteLookup subs cat

/-- `substitute` from the source: if the whole term equals some key, return
that key's value unchanged; otherwise rewrite the two subterms of a functor;
atoms and unmatched variables are returned unchanged. -/
def substitute (subs : Substitutions) (cat : Category) : Category :=
  match substituteLookup subs cat with
  | some value => value
  | none =>
    match cat with
    | .Left arg ret => .Left (substitute subs arg) (substitute subs ret)
    | .Right arg ret => .Right (substitute subs arg) (substitute subs ret)
    | cat => cat

/-- `left_type_raising` from the source: fresh `y`; result `(y < x) > y`,
no equations.  The extra `Nat` is the fresh-variable counter. -/
def left_type_raising (x : Category) (n : Nat) :
    (Category × Substitutions) × Nat :=
  let y := Category.Unbound n
  ((.Right (.Left x y) y, []), n + 1)

/-- `right_type_raising` from the source: fresh `y`; result `y < (x > y)`,
no equations. -/
def right_type_raising (x : Category) (n : Nat) :
    (Category × Substitutions) × Nat :=
  let y := Category.Unbound n
  ((.Left (.Right x y) y, []), n + 1)

/-- All `Unbound` variables occurring in an equation list. -/
def eqsVars (eqs : Equations) : Finset Category :=
  eqs.foldr (fun p acc => unbounds p.1 ∪ unbounds p.2 ∪ acc) ∅

/-- Total `count` of all terms in an equation list. -/
def eqsSize (eqs : Equations) : Nat :=
  eqs.foldr (fun p acc => count p.1 + count p.2 + acc) 0

theorem eqsVars_nil : eqsVars [] = ∅ := rfl

theorem eqsVars_cons (p : Category × Category) (eqs : Equations) :
    eqsVars (p :: eqs) = unbounds p.1 ∪ unbounds p.2 ∪ eqsVars eqs := rfl

theorem unbounds_Right (a r : Category) :
    unbounds (.Right a r) = unbounds a ∪ unbounds r := rfl

theorem unbounds_Left (a r : Category) :
    unbounds (.Left a r) = unbounds a ∪ unbounds r := rfl

theorem eqsSize_nil : eqsSize [] = 0 := rfl

theorem eqsSize_cons (p : Category × Category) (eqs : Equations) :
    eqsSize (p :: eqs) = count p.1 + count p.2 + eqsSize eqs := rfl

theorem count_Right (a r : Category) :
    count (.Right a r) = count a + count r + 1 := rfl

theorem count_Left (a r : Category) :
    count (.Left a r) = count a + count r + 1 := rfl

theorem eqsVars_append (l1 l2 : Equations) :
    eqsVars (l1 ++ l2) = eqsVars l1 ∪ eqsVars l2 := by
  induction l1 with
  | nil => simp [eqsVars]
  | cons p l ih =>
    simp only [List.cons_append, eqsVars_cons, ih, Finset.union_assoc]

theorem eqsSize_append (l1 l2 : Equations) :
    eqsSize (l1 ++ l2) = eqsSize l1 + eqsSize l2 := by
  induction l1 with
  | nil => simp [eqsSize]
  | cons p l ih => simp only [List.cons_append, eqsSize_cons, ih]; omega

theorem self_mem_unbounds {c : Category} (h : c.isUnbound = true) :
    c ∈ unbounds c := by
  cases c <;> simp_all [Category.isUnbound, unbounds]

theorem substituteLookup_single (v t c : Category) :
    substituteLookup [(v, t)] c = if c = v then some t else none := rfl

/-- Variables of a single-binding substitution image: everything of `c`
except possibly `v`, plus whatever `t` contributes. -/
theorem unbounds_substitute_single (v t : Category) :
    ∀ c : Category,
      unbounds (substitute [(v, t)] c) ⊆ (unbounds c \ {v}) ∪ unbounds t := by
  intro c
  induction c with
  | Unbound u =>
    by_cases h : Category.Unbound u = v
    · subst h
      simp [substitute, substituteLookup_single]
    · simp only [substitute, substituteLookup_single, if_neg h]
      intro x hx
      simp only [unbounds, Finset.mem_singleton] at hx
      subst hx
      simp [unbounds, h]
  | Atomic s =>
    by_cases h : Category.Atomic s = v
    · subst h
      simp [substitute, substituteLookup_single]
    · simp only [substitute, substituteLookup_single, if_neg h]
      simp [unbounds]
  | Right arg ret iharg ihret =>
    by_cases h : Category.Right arg ret = v
    · subst h
      simp [substitute, substituteLookup_single]
    · simp only [substitute, substituteLookup_single, if_neg h]
      intro x hx
      simp only [unbounds, Finset.mem_union] at hx
      rcases hx with hx | hx
      · have := iharg hx
        simp only [Finset.mem_union, Finset.mem_sdiff, Finset.mem_singleton,
          unbounds] at this ⊢
        tauto
      · have := ihret hx
        simp only [Finset.mem_union, Finset.mem_sdiff, Finset.mem_singleton,
          unbounds] at this ⊢
        tauto
  | Left arg ret iharg ihret =>
    by_cases h : Category.Left arg ret = v
    · subst h
      simp [substitute, substituteLookup_single]
    · simp only [substitute, substituteLookup_single, if_neg h]
      intro x hx
      simp only [unbounds, Finset.mem_union] at hx
      rcases hx with hx | hx
      · have := iharg hx
        simp only [Finset.mem_union, Finset.mem_sdiff, Finset.mem_singleton,
          unbounds] at this ⊢
        tauto
      · have := ihret hx
        simp only [Finset.mem_union, Finset.mem_sdiff, Finset.mem_singleton,
          unbounds] at this ⊢
        tauto

/-- Variables of an equation list after substituting a single binding
through both sides of every equation. -/
theorem eqsVars_map_single (v t : Category) (rest : Equations) :
    eqsVars (rest.map fun p =>
        (substitute [(v, t)] p.1, substitute [(v, t)] p.2)) ⊆
      (eqsVars rest \ {v}) ∪ unbounds t := by
  induction rest with
  | nil => simp [eqsVars]
  | cons p l ih =>
    simp only [List.map_cons, eqsVars_cons]
    intro x hx
    simp only [Finset.mem_union] at hx
    rcases hx with (hx | hx) | hx
    · have := unbounds_substitute_single v t p.1 hx
      simp only [Finset.mem_union, Finset.mem_sdiff, Finset.mem_singleton] at this ⊢
      tauto
    · have := unbounds_substitute_single v t p.2 hx
      simp only [Finset.mem_union, Finset.mem_sdiff, Finset.mem_singleton] at this ⊢
      tauto
    · have := ih hx
      simp only [Finset.mem_union, Finset.mem_sdiff, Finset.mem_singleton] at this ⊢
      tauto

/-- `unify` from the source: structural first-order unification.  The five
cases of the Python `match`, in order: empty list succeeds with the empty
substitution; a trivially equal pair is dropped; a variable on either side
passing the occurs-check is bound, substituted through the remaining
equations, and appended after the recursively obtained bindings; matching
functor directions decompose into equations on `arg` and `ret` appended at
the back; anything else fails. -/
def unify : Equations → Option Substitutions
  | [] => some []
  | (lhs, rhs) :: rest =>
    if lhs = rhs then
      unify rest
    else if h2 : lhs.isUnbound = true ∧ lhs ∉ unbounds rhs then
      match unify (rest.map fun p =>
          (substitute [(lhs, rhs)] p.1, substitute [(lhs, rhs)] p.2)) with
      | none => none
      | some subs => some (subs ++ [(lhs, rhs)])
    else if h3 : rhs.isUnbound = true ∧ rhs ∉ unbounds lhs then
      match unify (rest.map fun p =>
          (substitute [(rhs, lhs)] p.1, substitute [(rhs, lhs)] p.2)) with
      | none => none
      | some subs => some (subs ++ [(rhs, lhs)])
    else
      match lhs, rhs with
      | .Right larg lret, .Right rarg rret =>
        unify (rest ++ [(larg, rarg), (lret, rret)])
      | .Left larg lret, .Left rarg rret =>
        unify (rest ++ [(larg, rarg), (lret, rret)])
      | _, _ => none
termination_by eqs => ((eqsVars eqs).card, eqsSize eqs + eqs.length)
decreasing_by
  · -- dropping a trivially equal pair: variable set shrinks weakly,
    -- size-plus-length strictly
    have hsub : eqsVars rest ⊆ eqsVars ((lhs, rhs) :: rest) := by
      rw [eqsVars_cons]
      intro x hx
      simp only [Finset.mem_union]
      tauto
    rcases lt_or_eq_of_le (Finset.card_le_card hsub) with h | h
    · exact Prod.Lex.left _ _ h
    · rw [h]
      apply Prod.Lex.right
      simp only [eqsSize_cons, List.length_cons]
      omega
  · -- binding the left-hand variable: it disappears from every equation
    obtain ⟨hu, hnocc⟩ := h2
    apply Prod.Lex.left
    have hmem : lhs ∈ eqsVars ((lhs, rhs) :: rest) := by
      rw [eqsVars_cons]
      simp only [Finset.mem_union]
      exact Or.inl (Or.inl (self_mem_unbounds hu))
    have hsub : eqsVars (rest.map fun p =>
        (substitute [(lhs, rhs)] p.1, substitute [(lhs, rhs)] p.2)) ⊆
        (eqsVars ((lhs, rhs) :: rest)).erase lhs := by
      intro x hx
      have h1 := eqsVars_map_single lhs rhs rest hx
      simp only [Finset.mem_union, Finset.mem_sdiff, Finset.mem_singleton,
        Finset.mem_erase, eqsVars_cons] at h1 ⊢
      rcases h1 with ⟨hxr, hxne⟩ | hxt
      · exact ⟨hxne, Or.inr hxr⟩
      · refine ⟨?_, Or.inl (Or.inr hxt)⟩
        rintro rfl
        exact hnocc hxt
    calc (eqsVars (rest.map fun p =>
            (substitute [(lhs, rhs)] p.1, substitute [(lhs, rhs)] p.2))).card
        ≤ ((eqsVars ((lhs, rhs) :: rest)).erase lhs).card :=
          Finset.card_le_card hsub
      _ < (eqsVars ((lhs, rhs) :: rest)).card :=
          Finset.card_erase_lt_of_mem hmem
  · -- binding the right-hand variable: symmetric
    obtain ⟨hu, hnocc⟩ := h3
    apply Prod.Lex.left
    have hmem : rhs ∈ eqsVars ((lhs, rhs) :: rest) := by
      rw [eqsVars_cons]
      simp only [Finset.mem_union]
      exact Or.inl (Or.inr (self_mem_unbounds hu))
    have hsub : eqsVars (rest.map fun p =>
        (substitute [(rhs, lhs)] p.1, substitute [(rhs, lhs)] p.2)) ⊆
        (eqsVars ((lhs, rhs) :: rest)).erase rhs := by
      intro x hx
      have h1 := eqsVars_map_single rhs lhs rest hx
      simp only [Finset.mem_union, Finset.mem_sdiff, Finset.mem_singleton,
        Finset.mem_erase, eqsVars_cons] at h1 ⊢
      rcases h1 with ⟨hxr, hxne⟩ | hxt
      · exact ⟨hxne, Or.inr hxr⟩
      · refine ⟨?_, Or.inl (Or.inl hxt)⟩
        rintro rfl
        exact hnocc hxt
    calc (eqsVars (rest.map fun p =>
            (substitute [(rhs, lhs)] p.1, substitute [(rhs, lhs)] p.2))).card
        ≤ ((eqsVars ((lhs, rhs) :: rest)).erase rhs).card :=
          Finset.card_le_card hsub
      _ < (eqsVars ((lhs, rhs) :: rest)).card :=
          Finset.card_erase_lt_of_mem hmem
  · -- decomposing two `Right` functors
    have hv : eqsVars (rest ++ [(larg, rarg), (lret, rret)]) =
        eqsVars ((Category.Right larg lret, Category.Right rarg rret) :: rest) := by
      ext x
      simp only [eqsVars_append, eqsVars_cons, eqsVars_nil, unbounds_Right,
        Finset.mem_union, Finset.not_mem_empty, or_false]
      tauto
    rw [hv]
    apply Prod.Lex.right
    simp only [eqsSize_append, eqsSize_cons, eqsSize_nil, count_Right,
      List.length_append, List.length_cons, List.length_nil]
    omega
  · -- decomposing two `Left` functors
    have hv : eqsVars (rest ++ [(larg, rarg), (lret, rret)]) =
        eqsVars ((Category.Left larg lret, Category.Left rarg rret) :: rest) := by
      ext x
      simp only [eqsVars_append, eqsVars_cons, eqsVars_nil, unbounds_Left,
        Finset.mem_union, Finset.not_mem_empty, or_false]
      tauto
    rw [hv]
    apply Prod.Lex.right
    simp only [eqsSize_append, eqsSize_cons, eqsSize_nil, count_Left,
      List.length_append, List.length_cons, List.length_nil]
    omega

/-- `left_composition` from the source: the four shape cases, in order;
unbound sides mint fresh variables and emit deferred equations, the
concrete/concrete case unifies the inner boundary directly. -/
def left_composition (x y : Category) (n : Nat) :
    Option (Category × Substitutions) × Nat :=
  match x, y with
  | .Unbound _, .Unbound _ =>
    let arg := Category.Unbound n
    let mid := Category.Unbound (n + 1)
    let ret := Category.Unbound (n + 2)
    (some (.Left arg ret, [(x, .Left mid ret), (y, .Left arg mid)]), n + 3)
  | .Unbound _, .Left yarg yret =>
    let ret := Category.Unbound n
    (some (.Left yarg ret, [(x, .Left yret ret)]), n + 1)
  | .Left xarg xret, .Unbound _ =>
    let arg := Category.Unbound n
    (some (.Left arg xret, [(y, .Left arg xarg)]), n + 1)
  | .Left xarg xret, .Left yarg yret =>
    match unify [(xarg, yret)] with
    | some subs => (some (.Left yarg xret, subs), n)
    | none => (none, n)
  | _, _ => (none, n)

/-- `right_composition` from the source. -/
def right_composition (x y : Category) (n : Nat) :
    Option (Category × Substitutions) × Nat :=
  match x, y with
  | .Unbound _, .Unbound _ =>
    let arg := Category.Unbound n
    let mid := Category.Unbound (n + 1)
    let ret := Category.Unbound (n + 2)
    (some (.Right arg ret, [(x, .Right arg mid), (y, .Right mid ret)]), n + 3)
  | .Unbound _, .Right yarg yret =>
    let arg := Category.Unbound n
    (some (.Right arg yret, [(x, .Right arg yarg)]), n + 1)
  | .Right xarg xret, .Unbound _ =>
    let ret := Category.Unbound n
    (some (.Right xarg ret, [(y, .Right xret ret)]), n + 1)
  | .Right xarg xret, .Right yarg yret =>
    match unify [(xret, yarg)] with
    | some subs => (some (.Right xarg yret, subs), n)
    | none => (none, n)
  | _, _ => (none, n)

/-- `left_application` from the source: an unbound functor side invents the
required functor shape; a concrete `Left` functor unifies its argument with
the neighbor. -/
def left_application (x y : Category) (n : Nat) :
    Option (Category × Substitutions) × Nat :=
  match x with
  | .Unbound _ =>
    let ret := Category.Unbound n
    (some (ret, [(x, .Left y ret)]), n + 1)
  | .Left arg ret =>
    match unify [(arg, y)] with
    | some subs => (some (ret, subs), n)
    | none => (none, n)
  | _ => (none, n)

/-- `right_application` from the source. -/
def right_application (x y : Category) (n : Nat) :
    Option (Category × Substitutions) × Nat :=
  match y with
  | .Unbound _ =>
    let ret := Category.Unbound n
    (some (ret, [(y, .Right x ret)]), n + 1)
  | .Right arg ret =>
    match unify [(arg, x)] with
    | some subs => (some (ret, subs), n)
    | none => (none, n)
  | _ => (none, n)

theorem unify_nil : unify [] = some [] := by simp [unify]

theorem unify_cons_refl (c : Category) (rest : Equations) :
    unify ((c, c) :: rest) = unify rest := by
  simp [unify]

theorem mem_unbounds_isUnbound {v t : Category} (h : v ∈ unbounds t) :
    v.isUnbound = true := by
  induction t with
  | Unbound u =>
    simp only [unbounds, Finset.mem_singleton] at h
    subst h; rfl
  | Atomic s => simp [unbounds] at h
  | Right a r iha ihr =>
    simp only [unbounds_Right, Finset.mem_union] at h
    rcases h with h | h
    · exact iha h
    · exact ihr h
  | Left a r iha ihr =>
    simp only [unbounds_Left, Finset.mem_union] at h
    rcases h with h | h
    · exact iha h
    · exact ihr h

/-- Occurs-check failure: a variable equated with a strictly larger term
containing it makes `unify` fail. -/
theorem unify_occurs_fail (v t : Category) (hocc : v ∈ unbounds t)
    (hne : t ≠ v) : unify [(v, t)] = none := by
  obtain ⟨u, rfl⟩ : ∃ u, v = Category.Unbound u := by
    have hv := mem_unbounds_isUnbound hocc
    cases v <;> simp_all [Category.isUnbound]
  cases t with
  | Unbound w =>
    exfalso
    simp only [unbounds, Finset.mem_singleton] at hocc
    exact hne hocc.symm
  | Atomic s => simp [unbounds] at hocc
  | Right a r => simp [unify, Category.isUnbound, hocc]
  | Left a r => simp [unify, Category.isUnbound, hocc]

/-- Every binding produced by `unify` has an `Unbound` key and passes the
occurs-check: the key does not occur in the bound value. -/
theorem unify_bindings :
    ∀ eqs : Equations, ∀ s : Substitutions, unify eqs = some s →
      ∀ p ∈ s, p.1.isUnbound = true ∧ p.1 ∉ unbounds p.2 := by
  intro eqs
  induction eqs using unify.induct with
  | case1 =>
    intro s h p hp
    rw [unify_nil, Option.some.injEq] at h
    subst h
    simp at hp
  | case2 c rest ih =>
    intro s h p hp
    rw [unify_cons_refl] at h
    exact ih s h p hp
  | case3 lhs rhs rest hne h2 hrec ih =>
    intro s h p hp
    simp only [unify, if_neg hne, dif_pos h2, hrec] at h
    exact Option.noConfusion h
  | case4 lhs rhs rest hne h2 subs hrec ih =>
    intro s h p hp
    simp only [unify, if_neg hne, dif_pos h2, hrec] at h
    rw [Option.some.injEq] at h
    subst h
    rcases List.mem_append.mp hp with hp | hp
    · exact ih subs hrec p hp
    · simp only [List.mem_singleton] at hp
      subst hp
      exact h2
  | case5 lhs rhs rest hne h2 h3 hrec ih =>
    intro s h p hp
    simp only [unify, if_neg hne, dif_neg h2, dif_pos h3, hrec] at h
    exact Option.noConfusion h
  | case6 lhs rhs rest hne h2 h3 subs hrec ih =>
    intro s h p hp
    simp only [unify, if_neg hne, dif_neg h2, dif_pos h3, hrec] at h
    rw [Option.some.injEq] at h
    subst h
    rcases List.mem_append.mp hp with hp | hp
    · exact ih subs hrec p hp
    · simp only [List.mem_singleton] at hp
      subst hp
      exact h3
  | case7 rest larg lret rarg rret h2 h3 hne _ _ ih =>
    intro s h p hp
    simp only [unify, if_neg hne, dif_neg h2, dif_neg h3] at h
    exact ih s h p hp
  | case8 rest larg lret rarg rret h2 h3 hne _ _ ih =>
    intro s h p hp
    simp only [unify, if_neg hne, dif_neg h2, dif_neg h3] at h
    exact ih s h p hp
  | case9 lhs rhs rest hne h2 h3 _ _ hmatch1 hmatch2 =>
    intro s h p hp
    simp only [unify, if_neg hne, dif_neg h2, dif_neg h3] at h
    cases lhs <;> cases rhs <;> exact Option.noConfusion h

theorem substitute_Right_eq (s : Substitutions) (a r : Category)
    (hl : substituteLookup s (.Right a r) = none) :
    substitute s (.Right a r) = .Right (substitute s a) (substitute s r) := by
  simp [substitute, hl]

theorem substitute_Left_eq (s : Substitutions) (a r : Category)
    (hl : substituteLookup s (.Left a r) = none) :
    substitute s (.Left a r) = .Left (substitute s a) (substitute s r) := by
  simp [substitute, hl]

theorem substituteLookup_mem {s : Substitutions} {c v : Category}
    (h : substituteLookup s c = some v) : (c, v) ∈ s := by
  induction s with
  | nil => exact Option.noConfusion h
  | cons q rest ih =>
    obtain ⟨key, value⟩ := q
    by_cases hc : c = key
    · subst hc
      simp only [substituteLookup, if_true, eq_self_iff_true, if_pos,
        Option.some.injEq] at h
      subst h
      exact List.mem_cons_self _ _
    · simp only [substituteLookup, if_neg hc] at h
      exact List.mem_cons_of_mem _ (ih h)

theorem substituteLookup_none {s : Substitutions} {c : Category}
    (h : ∀ q ∈ s, c ≠ q.1) : substituteLookup s c = none := by
  induction s with
  | nil => rfl
  | cons q rest ih =>
    obtain ⟨key, value⟩ := q
    simp only [substituteLookup, if_neg (h (key, value) (List.mem_cons_self _ _))]
    exact ih fun q hq => h q (List.mem_cons_of_mem _ hq)

/-- A term containing no key of `s` is a fixed point of `substitute s`
(keys are variables, so a term is affected exactly when one of its
variables is a key). -/
theorem substitute_eq_self (s : Substitutions)
    (hkeys : ∀ q ∈ s, q.1.isUnbound = true) :
    ∀ t : Category, (∀ q ∈ s, q.1 ∉ unbounds t) → substitute s t = t := by
  intro t
  induction t with
  | Unbound u =>
    intro hdisj
    have hl : substituteLookup s (Category.Unbound u) = none := by
      refine substituteLookup_none fun q hq hc => ?_
      exact hdisj q hq (by rw [← hc]; simp [unbounds])
    simp [substitute, hl]
  | Atomic str =>
    intro hdisj
    have hl : substituteLookup s (Category.Atomic str) = none := by
      refine substituteLookup_none fun q hq hc => ?_
      have := hkeys q hq
      rw [← hc] at this
      simp [Category.isUnbound] at this
    simp [substitute, hl]
  | Right a r iha ihr =>
    intro hdisj
    have hl : substituteLookup s (Category.Right a r) = none := by
      refine substituteLookup_none fun q hq hc => ?_
      have := hkeys q hq
      rw [← hc] at this
      simp [Category.isUnbound] at this
    have hda : ∀ q ∈ s, q.1 ∉ unbounds a := fun q hq hm =>
      hdisj q hq (by simp [unbounds_Right, Finset.mem_union, hm])
    have hdr : ∀ q ∈ s, q.1 ∉ unbounds r := fun q hq hm =>
      hdisj q hq (by simp [unbounds_Right, Finset.mem_union, hm])
    simp [substitute, hl, iha hda, ihr hdr]
  | Left a r iha ihr =>
    intro hdisj
    have hl : substituteLookup s (Category.Left a r) = none := by
      refine substituteLookup_none fun q hq hc => ?_
      have := hkeys q hq
      rw [← hc] at this
      simp [Category.isUnbound] at this
    have hda : ∀ q ∈ s, q.1 ∉ unbounds a := fun q hq hm =>
      hdisj q hq (by simp [unbounds_Left, Finset.mem_union, hm])
    have hdr : ∀ q ∈ s, q.1 ∉ unbounds r := fun q hq hm =>
      hdisj q hq (by simp [unbounds_Left, Finset.mem_union, hm])
    simp [substitute, hl, iha hda, ihr hdr]

/-- Double application of a substitution with `Unbound` keys equals single
application provided no value of the substitution contains any key. -/
theorem substitute_idem (s : Substitutions)
    (hkeys : ∀ q ∈ s, q.1.isUnbound = true)
    (hres : ∀ p ∈ s, ∀ q ∈ s, q.1 ∉ unbounds p.2) :
    ∀ c : Category, substitute s (substitute s c) = substitute s c := by
  intro c
  induction c with
  | Unbound u =>
    cases hl : substituteLookup s (Category.Unbound u) with
    | some v =>
      simp only [substitute, hl]
      exact substitute_eq_self s hkeys v (hres _ (substituteLookup_mem hl))
    | none => simp [substitute, hl]
  | Atomic str =>
    cases hl : substituteLookup s (Category.Atomic str) with
    | some v =>
      simp only [substitute, hl]
      exact substitute_eq_self s hkeys v (hres _ (substituteLookup_mem hl))
    | none => simp [substitute, hl]
  | Right a r iha ihr =>
    cases hl : substituteLookup s (Category.Right a r) with
    | some v =>
      simp only [substitute, hl]
      exact substitute_eq_self s hkeys v (hres _ (substituteLookup_mem hl))
    | none =>
      have hl2 : ∀ a2 r2 : Category,
          substituteLookup s (Category.Right a2 r2) = none := by
        intro a2 r2
        refine substituteLookup_none fun q hq hc => ?_
        have := hkeys q hq
        rw [← hc] at this
        simp [Category.isUnbound] at this
      rw [substitute_Right_eq s a r hl, substitute_Right_eq s _ _ (hl2 _ _),
        iha, ihr]
  | Left a r iha ihr =>
    cases hl : substituteLookup s (Category.Left a r) with
    | some v =>
      simp only [substitute, hl]
      exact substitute_eq_self s hkeys v (hres _ (substituteLookup_mem hl))
    | none =>
      have hl2 : ∀ a2 r2 : Category,
          substituteLookup s (Category.Left a2 r2) = none := by
        intro a2 r2
        refine substituteLookup_none fun q hq hc => ?_
        have := hkeys q hq
        rw [← hc] at this
        simp [Category.isUnbound] at this
      rw [substitute_Left_eq s a r hl, substitute_Left_eq s _ _ (hl2 _ _),
        iha, ihr]

/-- C3: for every category `t` and unbound variable `v` occurring in `t`
with `t ≠ v`, `unify [(v, t)]` fails; and no substitution `unify` returns
binds a variable to a term containing that same variable. -/
theorem unify_occurs_check_claim :
    (∀ v t : Category, v ∈ unbounds t → t ≠ v → unify [(v, t)] = none) ∧
    (∀ (eqs : Equations) (s : Substitutions), unify eqs = some s →
      ∀ p ∈ s, p.1 ∉ unbounds p.2) :=
  ⟨unify_occurs_fail,
   fun eqs s h p hp => (unify_bindings eqs s h p hp).2⟩

/-- Witness for C3 at a concrete input: `unify [(v, v > a)]` fails for
`v = Unbound 0`, `a = Atomic "a"`. -/
theorem unify_occurs_check_claim_witness :
    unify [(Category.Unbound 0,
      Category.Right (Category.Unbound 0) (Category.Atomic "a"))] = none :=
  unify_occurs_check_claim.1 _ _ (by simp [unbounds]) (by simp)

/-- C2 is false as stated: `unify` returns a triangular substitution whose
later entries' values may mention earlier-bound variables, so double
application differs from single application.  Concretely,
`unify [(u, v), (v, a)] = [(v, a), (u, v)]` and applying that substitution
once to `u` gives `v` while applying it twice gives `a`. -/
theorem substitute_not_idem_counterexample :
    unify [(Category.Unbound 0, Category.Unbound 1),
           (Category.Unbound 1, Category.Atomic "a")] =
      some [(Category.Unbound 1, Category.Atomic "a"),
            (Category.Unbound 0, Category.Unbound 1)] ∧
    ¬ (substitute [(Category.Unbound 1, Category.Atomic "a"),
            (Category.Unbound 0, Category.Unbound 1)]
        (substitute [(Category.Unbound 1, Category.Atomic "a"),
            (Category.Unbound 0, Category.Unbound 1)] (Category.Unbound 0)) =
       substitute [(Category.Unbound 1, Category.Atomic "a"),
            (Category.Unbound 0, Category.Unbound 1)] (Category.Unbound 0)) := by
  constructor
  · simp [unify, Category.isUnbound, unbounds, substitute, substituteLookup]
  · decide

/-- C2 (amended): for every substitution returned by a successful `unify`
call in which no entry's value contains any entry's key (a fully resolved
substitution), applying `substitute` twice to any category yields the same
category as applying it once.  (`unify`'s output is guaranteed triangular,
not fully resolved, so the hypothesis is needed in general.) -/
theorem substitute_idem_of_resolved (eqs : Equations) (s : Substitutions)
    (h : unify eqs = some s)
    (hres : ∀ p ∈ s, ∀ q ∈ s, q.1 ∉ unbounds p.2) (c : Category) :
    substitute s (substitute s c) = substitute s c :=
  substitute_idem s (fun q hq => (unify_bindings eqs s h q hq).1) hres c

/-- Witness for amended C2 at a concrete input: the substitution returned
by `unify [(u, a)]` is idempotent on `u`. -/
theorem substitute_idem_of_resolved_witness :
    substitute [(Category.Unbound 0, Category.Atomic "a")]
      (substitute [(Category.Unbound 0, Category.Atomic "a")]
        (Category.Unbound 0)) =
    substitute [(Category.Unbound 0, Category.Atomic "a")]
      (Category.Unbound 0) :=
  substitute_idem_of_resolved [(Category.Unbound 0, Category.Atomic "a")] _
    (by simp [unify, Category.isUnbound, unbounds]) (by decide)
    (Category.Unbound 0)

/-- C6: for all categories `a`, `b`, `c`, `left_composition` on the two
same-direction functors `a < b` and `b < c` succeeds with result `a < c`
(and an empty substitution), at every fresh-variable counter. -/
theorem left_composition_functors (a b c : Category) (n : Nat) :
    left_composition (.Left b a) (.Left c b) n = (some (.Left c a, []), n) := by
  simp [left_composition, unify_cons_refl, unify_nil]

/-- C10: for distinct unbound variables `u`, `v`, `unify [(u, v)]` succeeds
and returns exactly the single binding `(u, v)`. -/
theorem unify_var_var (i j : Nat) (h : i ≠ j) :
    unify [(Category.Unbound i, Category.Unbound j)] =
      some [(Category.Unbound i, Category.Unbound j)] := by
  simp [unify, Category.isUnbound, unbounds, h]

/-- Witness for C10 at concrete distinct variables. -/
theorem unify_var_var_witness :
    unify [(Category.Unbound 0, Category.Unbound 1)] =
      some [(Category.Unbound 0, Category.Unbound 1)] :=
  unify_var_var 0 1 (by decide)

/-- `Tree` from the source: a leaf category or an ordered pair of trees. -/
inductive Tree where
  | leaf (cat : Category)
  | node (l r : Tree)
deriving DecidableEq

/-- `trees` from the source, with an explicit recursion fuel: a singleton
yields its leaf; otherwise every split position `i` in `range(1, len(cats))`
pairs every left bracketing of `cats[:i]` with every right bracketing of
`cats[i:]`.  Recursive calls are on strictly shorter lists, so fuel equal to
the list length (as supplied by `trees`) makes the fuel bound unreachable;
`treesAux_fuel` below proves fuel irrelevance. -/
def treesAux : Nat → List Category → List Tree
  | _, [c] => [Tree.leaf c]
  | 0, _ => []
  | fuel + 1, cats =>
    (List.range' 1 (cats.length - 1)).flatMap fun i =>
      (treesAux fuel (cats.take i)).flatMap fun l =>
        (treesAux fuel (cats.drop i)).map fun r => Tree.node l r

/-- `trees` from the source: every binary bracketing of the input, in split
position order. -/
def trees (cats : List Category) : List Tree :=
  treesAux cats.length cats

/-- One level of the source's `lift` generator: `(lift lvl cat n).1` is the
list of categories `lift(cat, lvl)` yields, i.e. `cat` raised exactly `lvl`
times, the right raise enumerated before the left raise at each step.  The
source's infinite `lift(cat)` stream is the concatenation of these levels in
increasing `lvl` order (consumed level by level in `scanLevels` below).
Fresh variables are minted per level; ids are opaque, so materializing a
level eagerly only renames variables relative to the lazy generator. -/
def lift : Nat → Category → Nat → List Category × Nat
  | 0, cat, n => ([cat], n)
  | lvl + 1, cat, n =>
    let r1 := lift lvl (right_type_raising cat n).1.1 (right_type_raising cat n).2
    let r2 := lift lvl (left_type_raising cat r1.2).1.1 (left_type_raising cat r1.2).2
    (r1.1 ++ r2.1, r2.2)

/-- The source's inner `for rule in [left_application, right_application]`
loop in `dparse1`: try `left_application` first, then `right_application`. -/
def tryRules (a b : Category) (n : Nat) :
    Option (Category × Substitutions) × Nat :=
  match left_application a b n with
  | (some res, n1) => (some res, n1)
  | (none, n1) =>
    match right_application a b n1 with
    | (some res, n2) => (some res, n2)
    | (none, n2) => (none, n2)

/-- Scanning one level of lifted candidates in stream order, exactly as the
source's lifting loop consumes the `lift` generator: break (flag `true`) at
the first candidate whose `count` exceeds the bound (`count` of the
category on the other side of the pending application); otherwise try the
two application rules, returning the substituted result on success. -/
def scanL (tryApp : Category → Nat → Option (Category × Substitutions) × Nat)
    (bound : Nat) : List Category → Nat → Option Category × Bool × Nat
  | [], n => (none, false, n)
  | c :: cs, n =>
    if bound < count c then (none, true, n)
    else
      match tryApp c n with
      | (some (cat, subs), n1) => (some (substitute subs cat), false, n1)
      | (none, n1) => scanL tryApp bound cs n1

/-- The source's `for lcatn in lift(lcat)` loop: consume the infinite lift
stream level by level, stopping on success or at the count-bound break.
`fuel` only reifies the finite consumed prefix of the infinite generator:
the break fires strictly before any fuel of at least `bound + 2` runs out
(`scanLevels_fuel` below), since level `lvl` candidates all have count
`count cat + 2 * lvl`. -/
def scanLevels
    (tryApp : Category → Nat → Option (Category × Substitutions) × Nat)
    (bound : Nat) (cat : Category) : Nat → Nat → Nat → Option Category × Nat
  | _, 0, n => (none, n)
  | lvl, fuel + 1, n =>
    match scanL tryApp bound (lift lvl cat n).1 (lift lvl cat n).2 with
    | (some r, _, n2) => (some r, n2)
    | (none, true, n2) => (none, n2)
    | (none, false, n2) => scanLevels tryApp bound cat (lvl + 1) fuel n2

/-- `dparse1` from the source: a leaf resolves to itself; an internal node
resolves both children (the source evaluates both before testing failure),
then scans the lift stream of the left category (level 0 is the unmodified
pair) against the unmodified right category, and on failure the lift stream
of the right category against the unmodified left one. -/
def dparse1 : Tree → Nat → Option Category × Nat
  | .leaf cat, n => (some cat, n)
  | .node lt rt, n =>
    let (lres, n1) := dparse1 lt n
    let (rres, n2) := dparse1 rt n1
    match lres, rres with
    | some lcat, some rcat =>
      match scanLevels (fun c => tryRules c rcat) (count rcat) lcat 0
          (count rcat + 2) n2 with
      | (some r, n3) => (some r, n3)
      | (none, n3) =>
        scanLevels (fun c => tryRules lcat c) (count lcat) rcat 0
          (count lcat + 2) n3
    | _, _ => (none, n2)

/-- The `for tree in trees(cats)` loop of `dparse`: resolve each bracketing
in order, keeping the results of the successful ones. -/
def dparseAux : List Tree → Nat → List Category × Nat
  | [], n => ([], n)
  | t :: ts, n =>
    let (res, n1) := dparse1 t n
    let (rest, n2) := dparseAux ts n1
    match res with
    | some c => (c :: rest, n2)
    | none => (rest, n2)

/-- `dparse` from the source: one attempted resolution per bracketing of
the input, yielding the successful ones in enumeration order. -/
def dparse (cats : List Category) (n : Nat) : List Category × Nat :=
  dparseAux (trees cats) n

theorem unify_atomic_ne {s t : String} (h : ¬ s = t) (rest : Equations) :
    unify ((Category.Atomic s, Category.Atomic t) :: rest) = none := by
  simp [unify, Category.isUnbound, h]

theorem count_Unbound (u : Nat) : count (.Unbound u) = 0 := rfl

theorem count_Atomic (s : String) : count (.Atomic s) = 0 := rfl

/-- C1: for atomic `x`, `y`, `z`, `dparse [z < y, x, x > y]` yields exactly
one result, the category `z` itself (in particular at least one result
equal to `z` up to renaming): the first bracketing resolves
`(x, x > y)` to `y` by `right_application`, then `(z < y, y)` to `z` by
`left_application` after the left lift loop breaks immediately; the second
bracketing fails. -/
theorem dparse_duality_example :
    (dparse [Category.Left (Category.Atomic "y") (Category.Atomic "z"),
             Category.Atomic "x",
             Category.Right (Category.Atomic "x") (Category.Atomic "y")] 0).1 =
      [Category.Atomic "z"] := by
  simp [dparse, dparseAux, trees, treesAux, dparse1, scanLevels, scanL, lift,
    tryRules, left_application, right_application, left_type_raising,
    right_type_raising, substitute, substituteLookup, count,
    unify_cons_refl, unify_nil, unify_atomic_ne, List.range']

/-- Every candidate of lift level `lvl` has count exactly
`count cat + 2 * lvl`: each type-raising adds one functor node on top of a
functor node around a fresh variable. -/
theorem count_lift : ∀ (lvl : Nat) (cat : Category) (n : Nat) (c : Category),
    c ∈ (lift lvl cat n).1 → count c = count cat + 2 * lvl := by
  intro lvl
  induction lvl with
  | zero =>
    intro cat n c hc
    simp only [lift, List.mem_singleton] at hc
    subst hc
    simp
  | succ l ih =>
    intro cat n c hc
    simp only [lift, right_type_raising, left_type_raising,
      List.mem_append] at hc
    rcases hc with hc | hc
    · have h := ih _ _ _ hc
      rw [h, count_Left, count_Right, count_Unbound]
      ring
    · have h := ih _ _ _ hc
      rw [h, count_Right, count_Left, count_Unbound]
      ring

/-- Every lift level is non-empty. -/
theorem lift_ne_nil : ∀ (lvl : Nat) (cat : Category) (n : Nat),
    (lift lvl cat n).1 ≠ [] := by
  intro lvl
  induction lvl with
  | zero => intro cat n; simp [lift]
  | succ l ih =>
    intro cat n
    simp only [lift]
    intro hcontra
    exact ih _ _ (List.append_eq_nil.mp hcontra).1

/-- If the level scan neither succeeds at the head nor breaks, the head
passed the count check. -/
theorem scanL_not_broke_head {tryApp} {bound : Nat} {c : Category}
    {cs : List Category} {n : Nat} {out : Option Category} {n2 : Nat}
    (h : scanL tryApp bound (c :: cs) n = (out, false, n2)) :
    count c ≤ bound := by
  by_contra hlt
  rw [scanL, if_pos (by omega)] at h
  simp at h

/-- The level loop's outcome does not depend on the reified fuel once the
fuel is past the break point, which arrives at level `bound / 2 + 1` at the
latest because level `lvl` candidates all have count
`count cat + 2 * lvl`. -/
theorem scanLevels_fuel
    (tryApp : Category → Nat → Option (Category × Substitutions) × Nat)
    (bound : Nat) (cat : Category) :
    ∀ (f1 f2 lvl n : Nat), bound + 2 ≤ lvl + f1 → bound + 2 ≤ lvl + f2 →
      1 ≤ f1 → 1 ≤ f2 →
      scanLevels tryApp bound cat lvl f1 n =
        scanLevels tryApp bound cat lvl f2 n := by
  intro f1
  induction f1 with
  | zero =>
    intro f2 lvl n _ _ h1 _
    omega
  | succ f ih =>
    intro f2 lvl n hb1 hb2 _ hf2
    obtain ⟨g, rfl⟩ : ∃ g, f2 = g + 1 := ⟨f2 - 1, by omega⟩
    simp only [scanLevels]
    rcases hsc : scanL tryApp bound (lift lvl cat n).1 (lift lvl cat n).2
      with ⟨out, broke, n2⟩
    rcases out with _ | r
    · rcases broke with _ | _
      · -- continue to the next level: the head passed the count check
        rcases hlift : (lift lvl cat n).1 with _ | ⟨c0, cs⟩
        · exact absurd hlift (lift_ne_nil lvl cat n)
        · have hc0 : count c0 = count cat + 2 * lvl :=
            count_lift lvl cat n c0 (by rw [hlift]; exact List.mem_cons_self _ _)
          rw [hlift] at hsc
          have hle : count c0 ≤ bound := scanL_not_broke_head hsc
          exact ih g (lvl + 1) n2 (by omega) (by omega) (by omega) (by omega)
      · rfl
    · rfl

/-- C4: the lifting loops in `dparse1` terminate with a bound determined
solely by the `count` of the two inputs: lifted variants are generated in
increasing raise-count order (level `lvl` candidates all have count
`count cat + 2 * lvl`, right-then-left at each level by construction of
`lift`), and the loop's outcome is independent of the reified stream prefix
once it covers `bound + 2` levels, because the scan breaks at the first
candidate whose count exceeds the partner's count. -/
theorem lift_bound_termination :
    (∀ (lvl : Nat) (cat : Category) (n : Nat) (c : Category),
        c ∈ (lift lvl cat n).1 → count c = count cat + 2 * lvl) ∧
    (∀ (tryApp : Category → Nat → Option (Category × Substitutions) × Nat)
        (bound : Nat) (cat : Category) (f1 f2 n : Nat),
        bound + 2 ≤ f1 → bound + 2 ≤ f2 →
        scanLevels tryApp bound cat 0 f1 n =
          scanLevels tryApp bound cat 0 f2 n) :=
  ⟨count_lift, fun tryApp bound cat f1 f2 n h1 h2 =>
    scanLevels_fuel tryApp bound cat f1 f2 0 n (by omega) (by omega)
      (by omega) (by omega)⟩

/-- Witness for C4 at concrete inputs: the first level-1 lift of `x` has
count `count x + 2`, and the left-lift loop of `(x, y)` computes the same
answer whatever sufficient fuel reifies the lift stream. -/
theorem lift_bound_termination_witness :
    count (Category.Left (Category.Right (Category.Atomic "x")
        (Category.Unbound 0)) (Category.Unbound 0)) =
      count (Category.Atomic "x") + 2 * 1 ∧
    scanLevels (fun c => tryRules c (Category.Atomic "y")) 0
        (Category.Atomic "x") 0 2 0 =
      scanLevels (fun c => tryRules c (Category.Atomic "y")) 0
        (Category.Atomic "x") 0 9 0 :=
  ⟨lift_bound_termination.1 1 (Category.Atomic "x") 0 _ (by decide),
   lift_bound_termination.2 _ 0 (Category.Atomic "x") 2 9 0 (by decide)
     (by decide)⟩

theorem treesAux_singleton (f : Nat) (c : Category) :
    treesAux f [c] = [Tree.leaf c] := by
  cases f <;> simp [treesAux]

theorem treesAux_nil (f : Nat) : treesAux f [] = [] := by
  cases f <;> simp [treesAux]

theorem flatMap_congr {α β : Type} {l : List α} {f g : α → List β}
    (h : ∀ a ∈ l, f a = g a) : l.flatMap f = l.flatMap g := by
  induction l with
  | nil => rfl
  | cons a l ih =>
    simp only [List.flatMap_cons, h a (List.mem_cons_self a l)]
    rw [ih fun b hb => h b (List.mem_cons_of_mem a hb)]

theorem treesAux_fuel : ∀ (f1 f2 : Nat) (cats : List Category),
    cats.length ≤ f1 → cats.length ≤ f2 →
    treesAux f1 cats = treesAux f2 cats := by
  intro f1
  induction f1 with
  | zero =>
    intro f2 cats h1 _
    have h : cats = [] := List.length_eq_zero.mp (Nat.le_zero.mp h1)
    subst h
    rw [treesAux_nil, treesAux_nil]
  | succ f ih =>
    intro f2 cats h1 h2
    match cats with
    | [] => rw [treesAux_nil, treesAux_nil]
    | [c] => rw [treesAux_singleton, treesAux_singleton]
    | c1 :: c2 :: cs =>
      obtain ⟨g, rfl⟩ : ∃ g, f2 = g + 1 := by
        refine ⟨f2 - 1, ?_⟩
        simp only [List.length_cons] at h2
        omega
      simp only [List.length_cons] at h1 h2
      simp only [treesAux]
      apply flatMap_congr
      intro i hi
      rw [List.mem_range'_1] at hi
      simp only [List.length_cons] at hi
      have ht : ((c1 :: c2 :: cs).take i).length = i := by
        rw [List.length_take]
        simp only [List.length_cons]
        omega
      have hd : ((c1 :: c2 :: cs).drop i).length = cs.length + 2 - i := by
        rw [List.length_drop]
        simp only [List.length_cons]
      rw [ih g ((c1 :: c2 :: cs).take i) (by omega) (by omega),
        ih g ((c1 :: c2 :: cs).drop i) (by omega) (by omega)]


theorem length_flatMap_map {α β γ : Type} (l : List α) (m : List β)
    (g : α → β → γ) :
    (l.flatMap fun a => m.map (g a)).length = l.length * m.length := by
  induction l with
  | nil => simp
  | cons a l ih =>
    simp only [List.flatMap_cons, List.length_append, List.length_map, ih,
      List.length_cons]
    ring

theorem list_range_map_sum (n : Nat) (f : Nat → Nat) :
    ((List.range n).map f).sum = ∑ i ∈ Finset.range n, f i := by
  induction n with
  | zero => simp
  | succ k ih =>
    rw [List.range_succ, List.map_append, List.sum_append,
      Finset.sum_range_succ, ih]
    simp

theorem trees_length_aux :
    ∀ n : Nat, ∀ cats : List Category, cats.length = n → 1 ≤ n →
      (trees cats).length = catalan (n - 1) := by
  intro n
  induction n using Nat.strong_induction_on with
  | _ n ih =>
    intro cats hlen hpos
    match cats with
    | [] => simp at hlen; omega
    | [c] =>
      simp only [List.length_singleton] at hlen
      rw [trees, treesAux_singleton, ← hlen]
      simp
    | c1 :: c2 :: cs =>
      have hn : n = cs.length + 2 := by
        simp only [List.length_cons] at hlen
        omega
      subst hn
      rw [trees]
      simp only [List.length_cons, treesAux, List.length_flatMap]
      have hpoint : ∀ i ∈ List.range' 1 (cs.length + 1 + 1 - 1),
          (List.length ∘ fun i =>
            (treesAux (cs.length + 1)
                (List.take i (c1 :: c2 :: cs))).flatMap fun l =>
              List.map (fun r => l.node r)
                (treesAux (cs.length + 1) (List.drop i (c1 :: c2 :: cs)))) i
            = catalan (i - 1) * catalan (cs.length + 1 - i) := by
        intro i hi
        rw [List.mem_range'_1] at hi
        have ht : (List.take i (c1 :: c2 :: cs)).length = i := by
          rw [List.length_take]
          simp only [List.length_cons]
          omega
        have hd : (List.drop i (c1 :: c2 :: cs)).length = cs.length + 2 - i := by
          rw [List.length_drop]
          simp only [List.length_cons]
        have h1 : (trees (List.take i (c1 :: c2 :: cs))).length =
            catalan (i - 1) := ih i (by omega) _ ht (by omega)
        have h2 : (trees (List.drop i (c1 :: c2 :: cs))).length =
            catalan (cs.length + 2 - i - 1) :=
          ih (cs.length + 2 - i) (by omega) _ hd (by omega)
        rw [trees, ht] at h1
        rw [trees, hd] at h2
        simp only [Function.comp]
        rw [length_flatMap_map,
          treesAux_fuel (cs.length + 1) i (List.take i (c1 :: c2 :: cs))
            (by omega) (by omega),
          treesAux_fuel (cs.length + 1) (cs.length + 2 - i)
            (List.drop i (c1 :: c2 :: cs)) (by omega) (by omega),
          h1, h2]
        congr 1
        congr 1
        omega
      rw [List.map_congr_left hpoint, List.range'_eq_map_range, List.map_map,
        list_range_map_sum]
      have hr : cs.length + 2 - 1 = cs.length + 1 := rfl
      rw [hr, catalan_succ,
        Fin.sum_univ_eq_sum_range (fun i => catalan i * catalan (cs.length - i))
          cs.length.succ]
      apply Finset.sum_congr rfl
      intro j hj
      simp only [Function.comp]
      congr 1
      · congr 1
        omega
      · congr 1
        omega

/-- C5: for every input of length `n ≥ 1`, the tree-directed search
attempts exactly the `catalan (n - 1)` binary bracketings of the sequence:
the bracketing list `trees` has that length, and `dparse` is by definition
the fold attempting each of its elements in order. -/
theorem dparse_bracketing_count (cats : List Category)
    (h : 1 ≤ cats.length) :
    (trees cats).length = catalan (cats.length - 1) ∧
    ∀ n : Nat, dparse cats n = dparseAux (trees cats) n :=
  ⟨trees_length_aux cats.length cats rfl h, fun _ => rfl⟩

/-- Witness for C5: a length-3 sequence has `catalan 2 = 2` bracketings. -/
theorem dparse_bracketing_count_witness :
    (trees [Category.Atomic "x", Category.Atomic "y",
      Category.Atomic "z"]).length = 2 := by
  have h := (dparse_bracketing_count
    [Category.Atomic "x", Category.Atomic "y", Category.Atomic "z"]
    (by decide)).1
  rw [h, show ([Category.Atomic "x", Category.Atomic "y",
    Category.Atomic "z"] : List Category).length - 1 = 2 from rfl,
    catalan_two]

/-- `unary_rules` from the source: `[right_type_raising, left_type_raising]`. -/
def unary_rules :
    List (Category → Nat → (Category × Substitutions) × Nat) :=
  [right_type_raising, left_type_raising]

/-- `binary_rules` from the source: `[right_composition, left_composition,
right_application, left_application]`. -/
def binary_rules :
    List (Category → Category → Nat →
      Option (Category × Substitutions) × Nat) :=
  [right_composition, left_composition, right_application, left_application]

/-- The `for i in range(len(cats))` loop in `parse` for one unary rule:
`pre` holds the already scanned prefix `cats[:i]`.  Each position's
successor replaces `cats[i]` by the rule's result category and applies the
returned substitution to every element of the new sequence.  (The source's
unary rules always succeed, matching their non-optional type.) -/
def unarySuccessorsAux
    (rule : Category → Nat → (Category × Substitutions) × Nat) :
    List Category → List Category → Nat → List (List Category) × Nat
  | _, [], n => ([], n)
  | pre, c :: cs, n =>
    let newCats := (pre ++ ((rule c n).1).1 :: cs).map
      (substitute ((rule c n).1).2)
    let more := unarySuccessorsAux rule (pre ++ [c]) cs (rule c n).2
    (newCats :: more.1, more.2)

/-- The `for i in range(len(cats)-1)` loop in `parse` for one binary rule:
each successful application at an adjacent pair contributes one successor,
the combined category replacing the pair and the substitution applied to
every element. -/
def binarySuccessorsAux
    (rule : Category → Category → Nat →
      Option (Category × Substitutions) × Nat) :
    List Category → List Category → Nat → List (List Category) × Nat
  | pre, x :: y :: cs, n =>
    let more := binarySuccessorsAux rule (pre ++ [x]) (y :: cs) (rule x y n).2
    match (rule x y n).1 with
    | some (cat, subs) =>
      (((pre ++ cat :: cs).map (substitute subs)) :: more.1, more.2)
    | none => (more.1, more.2)
  | _, _, n => ([], n)

/-- One `while` iteration's successor enumeration in `parse`: every unary
rule at every position, then every binary rule at every adjacent pair, in
the rule-then-position order of the source's nested loops. -/
def successors (cats : List Category) (n : Nat) :
    List (List Category) × Nat :=
  let u1 := unarySuccessorsAux right_type_raising [] cats n
  let u2 := unarySuccessorsAux left_type_raising [] cats u1.2
  let b1 := binarySuccessorsAux right_composition [] cats u2.2
  let b2 := binarySuccessorsAux left_composition [] cats b1.2
  let b3 := binarySuccessorsAux right_application [] cats b2.2
  let b4 := binarySuccessorsAux left_application [] cats b3.2
  (u1.1 ++ u2.1 ++ b1.1 ++ b2.1 ++ b3.1 ++ b4.1, b4.2)

/-- One iteration of `parse`'s `while` loop: pop the oldest sequence
(first-in-first-out); a length-1 sequence yields its sole element and
continues without enqueuing; any other sequence yields nothing and appends
all its successors at the back of the queue.  An empty queue is returned
unchanged (the source's loop exits there). -/
def parseStep :
    List (List Category) × Nat →
      Option Category × (List (List Category) × Nat)
  | ([], n) => (none, ([], n))
  | (cats :: queue, n) =>
    match cats with
    | [c] => (some c, (queue, n))
    | _ =>
      (none, (queue ++ (successors cats n).1, (successors cats n).2))

/-- `k` iterations of `parse`'s loop (stopping if the queue empties, as the
source's `while` does), collecting the yielded categories in order; the
source's `parse` is this iteration run indefinitely on the seed queue
`[cats]`, pull-driven by the caller. -/
def parseRun :
    Nat → List (List Category) × Nat →
      List Category × (List (List Category) × Nat)
  | 0, st => ([], st)
  | k + 1, st =>
    match st with
    | ([], n) => ([], ([], n))
    | st =>
      let out := parseStep st
      let rest := parseRun k out.2
      (match out.1 with
       | some c => c :: rest.1
       | none => rest.1, rest.2)

/-- `parse` from the source, reified: the queue is seeded with the input
sequence and the loop is iterated `k` times. -/
def parse (cats : List Category) (k : Nat) (n : Nat) :
    List Category × (List (List Category) × Nat) :=
  parseRun k ([cats], n)

theorem parseRun_nil (k : Nat) (n : Nat) :
    parseRun k ([], n) = ([], ([], n)) := by
  cases k <;> rfl


theorem parseStep_singleton (c : Category) (q : List (List Category))
    (n : Nat) : parseStep ([c] :: q, n) = (some c, (q, n)) := rfl

theorem parseStep_cons (cats : List Category) (q : List (List Category))
    (n : Nat) (h : cats.length ≠ 1) :
    parseStep (cats :: q, n) =
      (none, (q ++ (successors cats n).1, (successors cats n).2)) := by
  match cats with
  | [] => rfl
  | [c] => exact absurd rfl h
  | c1 :: c2 :: cs => rfl

theorem unarySuccessorsAux_length
    (rule : Category → Nat → (Category × Substitutions) × Nat) :
    ∀ (rest pre : List Category) (n : Nat),
      ((unarySuccessorsAux rule pre rest n).1).length = rest.length := by
  intro rest
  induction rest with
  | nil => intro pre n; rfl
  | cons c cs ih =>
    intro pre n
    simp only [unarySuccessorsAux, List.length_cons]
    rw [ih (pre ++ [c]) ((rule c n).2)]

theorem unarySuccessorsAux_getElem
    (rule : Category → Nat → (Category × Substitutions) × Nat)
    (hr : ∀ c m, (rule c m).2 = m + 1) :
    ∀ (rest pre : List Category) (n : Nat) (i : Nat) (c : Category),
      rest[i]? = some c →
      ((unarySuccessorsAux rule pre rest n).1)[i]? =
        some (((pre ++ rest.take i) ++ ((rule c (n + i)).1).1 ::
          rest.drop (i + 1)).map (substitute ((rule c (n + i)).1).2)) := by
  intro rest
  induction rest with
  | nil => intro pre n i c hc; simp at hc
  | cons c0 cs ih =>
    intro pre n i c hc
    match i with
    | 0 =>
      simp only [List.getElem?_cons_zero, Option.some.injEq] at hc
      subst hc
      simp only [unarySuccessorsAux, List.getElem?_cons_zero,
        Option.some.injEq, Nat.add_zero, List.take_zero, List.append_nil,
        List.drop_succ_cons, List.drop_zero]
    | i + 1 =>
      simp only [List.getElem?_cons_succ] at hc
      simp only [unarySuccessorsAux, List.getElem?_cons_succ]
      rw [ih (pre ++ [c0]) ((rule c0 n).2) i c hc, hr c0 n]
      have hn : n + 1 + i = n + (i + 1) := by omega
      rw [hn]
      have hl : (pre ++ [c0]) ++ cs.take i = pre ++ (c0 :: cs).take (i + 1) := by
        rw [List.take_succ_cons, List.append_assoc, List.singleton_append]
      rw [hl, List.drop_succ_cons]


theorem binarySuccessorsAux_mem
    (rule : Category → Category → Nat →
      Option (Category × Substitutions) × Nat) :
    ∀ (rest pre : List Category) (n : Nat) (s : List Category),
      s ∈ (binarySuccessorsAux rule pre rest n).1 →
      ∃ (pre2 post : List Category) (x y : Category) (m : Nat)
        (cat : Category) (subs : Substitutions),
        rest = pre2 ++ x :: y :: post ∧
        (rule x y m).1 = some (cat, subs) ∧
        s = ((pre ++ pre2) ++ cat :: post).map (substitute subs) := by
  intro rest
  induction rest with
  | nil => intro pre n s hs; simp [binarySuccessorsAux] at hs
  | cons x rest0 ih =>
    intro pre n s hs
    match rest0 with
    | [] => simp [binarySuccessorsAux] at hs
    | y :: cs =>
      simp only [binarySuccessorsAux] at hs
      rcases hres : (rule x y n).1 with _ | ⟨cat, subs⟩
      · rw [hres] at hs
        simp only at hs
        obtain ⟨pre2, post, x2, y2, m, cat2, subs2, heq, hrule, hseq⟩ :=
          ih (pre ++ [x]) ((rule x y n).2) s hs
        exact ⟨x :: pre2, post, x2, y2, m, cat2, subs2,
          by rw [heq]; rfl, hrule,
          by rw [hseq]; congr 1; simp⟩
      · rw [hres] at hs
        simp only [List.mem_cons] at hs
        rcases hs with rfl | hs
        · exact ⟨[], cs, x, y, n, cat, subs, rfl, hres,
            by simp⟩
        · obtain ⟨pre2, post, x2, y2, m, cat2, subs2, heq, hrule, hseq⟩ :=
            ih (pre ++ [x]) ((rule x y n).2) s hs
          exact ⟨x :: pre2, post, x2, y2, m, cat2, subs2,
            by rw [heq]; rfl, hrule,
            by rw [hseq]; congr 1; simp⟩


theorem left_application_none_indep (x y : Category) (n m : Nat) :
    (left_application x y n).1 = none ↔ (left_application x y m).1 = none := by
  cases x <;> simp only [left_application]
  case Left arg ret => cases unify [(arg, y)] <;> simp
  all_goals simp

theorem right_application_none_indep (x y : Category) (n m : Nat) :
    (right_application x y n).1 = none ↔
      (right_application x y m).1 = none := by
  cases y <;> simp only [right_application]
  case Right arg ret => cases unify [(arg, x)] <;> simp
  all_goals simp

theorem left_composition_none_indep (x y : Category) (n m : Nat) :
    (left_composition x y n).1 = none ↔ (left_composition x y m).1 = none := by
  cases x <;> cases y <;> simp only [left_composition]
  case Left.Left xarg xret yarg yret => cases unify [(xarg, yret)] <;> simp
  all_goals simp

theorem right_composition_none_indep (x y : Category) (n m : Nat) :
    (right_composition x y n).1 = none ↔
      (right_composition x y m).1 = none := by
  cases x <;> cases y <;> simp only [right_composition]
  case Right.Right xarg xret yarg yret => cases unify [(xret, yarg)] <;> simp
  all_goals simp

/-- Success or failure of every binary rule is independent of the
fresh-variable counter (it depends only on the two category shapes and on
`unify`, which takes no counter). -/
theorem binary_rules_none_indep :
    ∀ rule ∈ binary_rules, ∀ (x y : Category) (n m : Nat),
      (rule x y n).1 = none ↔ (rule x y m).1 = none := by
  intro rule hrule
  simp only [binary_rules, List.mem_cons, List.not_mem_nil, or_false] at hrule
  rcases hrule with rfl | rfl | rfl | rfl
  · exact right_composition_none_indep
  · exact left_composition_none_indep
  · exact right_application_none_indep
  · exact left_application_none_indep


/-- If a binary rule succeeds at some split of the sequence (at any
counter), the corresponding successor is present in the generated list. -/
theorem binarySuccessorsAux_complete
    (rule : Category → Category → Nat →
      Option (Category × Substitutions) × Nat)
    (hind : ∀ (x y : Category) (n m : Nat),
      (rule x y n).1 = none ↔ (rule x y m).1 = none) :
    ∀ (pre2 pre post : List Category) (x y : Category) (n m : Nat)
      (cat : Category) (subs : Substitutions),
      (rule x y m).1 = some (cat, subs) →
      ∃ (m2 : Nat) (cat2 : Category) (subs2 : Substitutions),
        (rule x y m2).1 = some (cat2, subs2) ∧
        (((pre ++ pre2) ++ cat2 :: post).map (substitute subs2)) ∈
          (binarySuccessorsAux rule pre (pre2 ++ x :: y :: post) n).1 := by
  intro pre2
  induction pre2 with
  | nil =>
    intro pre post x y n m cat subs hsucc
    rcases hres : (rule x y n).1 with _ | ⟨cat2, subs2⟩
    · rw [(hind x y m n).mpr hres] at hsucc
      exact Option.noConfusion hsucc
    · refine ⟨n, cat2, subs2, hres, ?_⟩
      simp only [List.nil_append, List.append_nil, binarySuccessorsAux, hres,
        List.mem_cons]
      left
      trivial
  | cons p pre2 ih =>
    intro pre post x y n m cat subs hsucc
    rcases hmid : pre2 ++ x :: y :: post with _ | ⟨t, ts⟩
    · exact absurd hmid (by simp)
    · obtain ⟨m2, cat2, subs2, hr2, hmem⟩ :=
        ih (pre ++ [p]) post x y ((rule p t n).2) m cat subs hsucc
      rw [hmid] at hmem
      refine ⟨m2, cat2, subs2, hr2, ?_⟩
      have he : pre ++ p :: pre2 = (pre ++ [p]) ++ pre2 := by simp
      rw [List.cons_append, hmid, he]
      simp only [binarySuccessorsAux]
      rcases hres : (rule p t n).1 with _ | ⟨cat3, subs3⟩
      · exact hmem
      · exact List.mem_cons_of_mem _ hmem


/-- C7: the rewrite-queue search processes a first-in-first-out queue
seeded with the input: it pops the oldest sequence; a singleton yields its
sole element and the search continues on the remaining queue; otherwise
the successors — one per successful unary rule application at each
position and per successful binary rule application at each adjacent pair,
in rule-then-position order, with the returned substitution applied to
every element — are enqueued at the back.  Stated as the two step
equations, the positional characterization of the unary successor lists
(unary rules advance the counter by one per position), and soundness and
completeness of the binary successor lists. -/
theorem parse_step_spec :
    (∀ (c : Category) (q : List (List Category)) (n : Nat),
        parseStep ([c] :: q, n) = (some c, (q, n))) ∧
    (∀ (cats : List Category) (q : List (List Category)) (n : Nat),
        cats.length ≠ 1 →
        parseStep (cats :: q, n) =
          (none, (q ++ (successors cats n).1, (successors cats n).2))) ∧
    (∀ rule, (∀ (c : Category) (m : Nat), (rule c m).2 = m + 1) →
      ∀ (cats : List Category) (n i : Nat) (c : Category),
        cats[i]? = some c →
        ((unarySuccessorsAux rule [] cats n).1)[i]? =
          some ((cats.take i ++ ((rule c (n + i)).1).1 ::
            cats.drop (i + 1)).map (substitute ((rule c (n + i)).1).2))) ∧
    (∀ rule (cats : List Category) (n : Nat) (s : List Category),
        s ∈ (binarySuccessorsAux rule [] cats n).1 →
        ∃ (pre post : List Category) (x y : Category) (m : Nat)
          (cat : Category) (subs : Substitutions),
          cats = pre ++ x :: y :: post ∧
          (rule x y m).1 = some (cat, subs) ∧
          s = (pre ++ cat :: post).map (substitute subs)) ∧
    (∀ rule, rule ∈ binary_rules →
      ∀ (pre2 post : List Category) (x y : Category) (n m : Nat)
        (cat : Category) (subs : Substitutions),
        (rule x y m).1 = some (cat, subs) →
        ∃ (m2 : Nat) (cat2 : Category) (subs2 : Substitutions),
          (rule x y m2).1 = some (cat2, subs2) ∧
          ((pre2 ++ cat2 :: post).map (substitute subs2)) ∈
            (binarySuccessorsAux rule [] (pre2 ++ x :: y :: post) n).1) := by
  refine ⟨parseStep_singleton, parseStep_cons, ?_, ?_, ?_⟩
  · intro rule hr cats n i c hc
    have h := unarySuccessorsAux_getElem rule hr cats [] n i c hc
    simpa using h
  · intro rule cats n s hs
    obtain ⟨pre2, post, x, y, m, cat, subs, h1, h2, h3⟩ :=
      binarySuccessorsAux_mem rule cats [] n s hs
    exact ⟨pre2, post, x, y, m, cat, subs, h1, h2, by simpa using h3⟩
  · intro rule hrule pre2 post x y n m cat subs hsucc
    obtain ⟨m2, cat2, subs2, h1, h2⟩ :=
      binarySuccessorsAux_complete rule (binary_rules_none_indep rule hrule)
        pre2 [] post x y n m cat subs hsucc
    exact ⟨m2, cat2, subs2, h1, by simpa using h2⟩

/-- Witness for C7 at concrete inputs: a singleton queue entry yields; a
pair enqueues its successors; the unary successor at position 0 of `[x]`
is the right-raised category; the binary successor `[y]` of
`[x, x > y]` under `right_application` is sound and present. -/
theorem parse_step_spec_witness :
    parseStep ([[Category.Atomic "x"]], 0) =
      (some (Category.Atomic "x"), ([], 0)) ∧
    parseStep ([[Category.Atomic "x", Category.Atomic "x"]], 0) =
      (none,
        ([] ++ (successors [Category.Atomic "x", Category.Atomic "x"] 0).1,
         (successors [Category.Atomic "x", Category.Atomic "x"] 0).2)) ∧
    ((unarySuccessorsAux right_type_raising []
        [Category.Atomic "x"] 0).1)[0]? =
      some [Category.Left (Category.Right (Category.Atomic "x")
        (Category.Unbound 0)) (Category.Unbound 0)] ∧
    (∃ (pre post : List Category) (x y : Category) (m : Nat)
        (cat : Category) (subs : Substitutions),
        [Category.Atomic "x",
          Category.Right (Category.Atomic "x") (Category.Atomic "y")] =
            pre ++ x :: y :: post ∧
        (right_application x y m).1 = some (cat, subs) ∧
        [Category.Atomic "y"] = (pre ++ cat :: post).map (substitute subs)) ∧
    (∃ (m2 : Nat) (cat2 : Category) (subs2 : Substitutions),
        (right_application (Category.Atomic "x")
          (Category.Right (Category.Atomic "x") (Category.Atomic "y")) m2).1 =
            some (cat2, subs2) ∧
        ((([] : List Category) ++ cat2 :: ([] : List Category)).map
            (substitute subs2)) ∈
          (binarySuccessorsAux right_application []
            (([] : List Category) ++ Category.Atomic "x" ::
              Category.Right (Category.Atomic "x") (Category.Atomic "y") ::
              ([] : List Category)) 0).1) := by
  refine ⟨parse_step_spec.1 _ _ _, parse_step_spec.2.1 _ _ _ (by decide),
    ?_, ?_, ?_⟩
  · have h := parse_step_spec.2.2.1 right_type_raising (fun c m => rfl)
      [Category.Atomic "x"] 0 0 (Category.Atomic "x") rfl
    simpa [right_type_raising, substitute, substituteLookup] using h
  · exact parse_step_spec.2.2.2.1 right_application _ 0 _
      (by simp [binarySuccessorsAux, right_application, unify_cons_refl,
        unify_nil, substitute, substituteLookup])
  · exact parse_step_spec.2.2.2.2 right_application
      (by simp [binary_rules]) [] [] _ _ 0 0 (Category.Atomic "y") []
      (by simp [right_application, unify_cons_refl, unify_nil])

theorem unarySuccessorsAux_mem_length
    (rule : Category → Nat → (Category × Substitutions) × Nat) :
    ∀ (rest pre : List Category) (n : Nat),
      ∀ s ∈ (unarySuccessorsAux rule pre rest n).1,
        s.length = pre.length + rest.length := by
  intro rest
  induction rest with
  | nil => intro pre n s hs; simp [unarySuccessorsAux] at hs
  | cons c cs ih =>
    intro pre n s hs
    simp only [unarySuccessorsAux, List.mem_cons] at hs
    rcases hs with rfl | hs
    · simp only [List.length_map, List.length_append, List.length_cons]
    · have := ih (pre ++ [c]) ((rule c n).2) s hs
      simp only [List.length_append, List.length_cons,
        List.length_nil] at this ⊢
      omega

/-- Every length-2-or-more sequence has a same-length (type-raising)
successor. -/
theorem successors_has_long (cats : List Category) (n : Nat)
    (h : 2 ≤ cats.length) :
    ∃ s ∈ (successors cats n).1, s.length = cats.length := by
  have hlen : ((unarySuccessorsAux right_type_raising [] cats n).1).length =
      cats.length := unarySuccessorsAux_length _ cats [] n
  rcases hu : (unarySuccessorsAux right_type_raising [] cats n).1
    with _ | ⟨s0, ss⟩
  · rw [hu] at hlen
    simp at hlen
    omega
  · refine ⟨s0, ?_, ?_⟩
    · simp only [successors]
      refine List.mem_append_left _ ?_
      rw [hu]
      exact List.mem_cons_self _ _
    · have := unarySuccessorsAux_mem_length right_type_raising cats [] n s0
        (by rw [hu]; exact List.mem_cons_self _ _)
      simpa using this

/-- One parse step preserves "the queue contains a sequence of length at
least 2". -/
theorem parseStep_preserves (q : List (List Category)) (n : Nat)
    (h : ∃ s ∈ q, 2 ≤ s.length) :
    ∃ s ∈ (parseStep (q, n)).2.1, 2 ≤ s.length := by
  match q with
  | [] => simp at h
  | cats :: rest =>
    obtain ⟨s0, hs0, hlen0⟩ := h
    rcases List.mem_cons.mp hs0 with rfl | hmem
    · rw [parseStep_cons s0 rest n (by omega)]
      obtain ⟨s, hs, hslen⟩ := successors_has_long s0 n hlen0
      exact ⟨s, List.mem_append_right _ hs, by omega⟩
    · by_cases h1 : cats.length = 1
      · obtain ⟨c, rfl⟩ := List.length_eq_one.mp h1
        rw [parseStep_singleton]
        exact ⟨s0, hmem, hlen0⟩
      · rw [parseStep_cons cats rest n h1]
        exact ⟨s0, List.mem_append_left _ hmem, hlen0⟩

/-- Any number of parse steps preserves it. -/
theorem parseRun_preserves (k : Nat) :
    ∀ (q : List (List Category)) (n : Nat), (∃ s ∈ q, 2 ≤ s.length) →
      ∃ s ∈ (parseRun k (q, n)).2.1, 2 ≤ s.length := by
  induction k with
  | zero => intro q n h; exact h
  | succ k ih =>
    intro q n h
    match q with
    | [] => simp at h
    | cats :: rest =>
      have hstep := parseStep_preserves (cats :: rest) n h
      simp only [parseRun]
      rcases hout : (parseStep (cats :: rest, n)).2 with ⟨q2, n2⟩
      rw [hout] at hstep
      exact ih q2 n2 hstep

/-- C8: for every input sequence of length at least 2, the internal queue
of `parse` is never empty at the start of any loop iteration — every
dequeued sequence of length at least 2 enqueues (among others) its
full-length type-raising successors — so the search loop never exits. -/
theorem parse_queue_never_empty (cats : List Category)
    (h : 2 ≤ cats.length) (k n : Nat) :
    (∃ s ∈ (parseRun k ([cats], n)).2.1, 2 ≤ s.length) ∧
    (parseRun k ([cats], n)).2.1 ≠ [] := by
  have hinv := parseRun_preserves k [cats] n ⟨cats, List.mem_cons_self _ _, h⟩
  refine ⟨hinv, ?_⟩
  obtain ⟨s, hs, _⟩ := hinv
  intro hnil
  rw [hnil] at hs
  simp at hs

/-- Witness for C8 at a concrete input and step count. -/
theorem parse_queue_never_empty_witness :
    (∃ s ∈ (parseRun 3 ([[Category.Atomic "x", Category.Atomic "x"]],
        0)).2.1, 2 ≤ s.length) ∧
    (parseRun 3
      ([[Category.Atomic "x", Category.Atomic "x"]], 0)).2.1 ≠ [] :=
  parse_queue_never_empty [Category.Atomic "x", Category.Atomic "x"]
    (by decide) 3 0

/-- C9: on the empty input both entry points terminate with an empty
result stream: `trees` enumerates no bracketing of `[]` so `dparse`
attempts and yields nothing, and `parse` dequeues the empty sequence,
finds no rule position (no successors), and exits once its queue empties:
every run of at least one step ends with no output and an empty queue. -/
theorem empty_input_no_results (n k : Nat) (hk : 1 ≤ k) :
    trees ([] : List Category) = [] ∧
    dparse [] n = ([], n) ∧
    successors [] n = ([], n) ∧
    parseRun k ([[]], n) = ([], ([], n)) := by
  refine ⟨rfl, rfl, rfl, ?_⟩
  obtain ⟨k2, rfl⟩ : ∃ k2, k = k2 + 1 := ⟨k - 1, by omega⟩
  have h1 : parseStep ([[]], n) = (none, ([], n)) := rfl
  simp only [parseRun, h1, parseRun_nil]

/-- Witness for C9 at a concrete run length. -/
theorem empty_input_no_results_witness :
    trees ([] : List Category) = [] ∧
    dparse [] 0 = ([], 0) ∧
    successors [] 0 = ([], 0) ∧
    parseRun 1 ([[]], 0) = ([], ([], 0)) :=
  empty_input_no_results 0 1 (by decide)

end Ocicat


